import Mathlib

/-!
Verification development for the merge-and-lookup engine of
`merge_files_app.py`: a shallow embedding of its table model, column-name
normalization, file-merge loop, and multi-column lookup, together with
theorems settling the specification's claims.

Cells are modelled as `Option String` (`none` = pandas `NaN`); a table is an
ordered list of column names with an ordered list of rows.
-/

/-- A cell is either text or the missing marker (pandas `NaN`). -/
abbrev Cell := Option String

/-- In-memory table: ordered column names and ordered rows of cells. -/
structure Table where
  cols : List String
  rows : List (List Cell)
deriving Repr, DecidableEq

/-- Well-formedness: every row has exactly one cell per column. -/
def Table.WF (t : Table) : Prop :=
  ∀ r ∈ t.rows, r.length = t.cols.length

/-- Index of the first occurrence of the label `c` in `cols` (pandas resolves
a label to its first position). -/
def colIdx? (cols : List String) (c : String) : Option Nat :=
  match cols with
  | [] => none
  | a :: rest => if a = c then some 0 else (colIdx? rest c).map (· + 1)

/-- Cell of row `r` at the column named `c` (first occurrence), `none` when the
column is absent.  Mirrors label-based access `df[c]` on a positional row. -/
def rowCell (cols : List String) (r : List Cell) (c : String) : Cell :=
  match colIdx? cols c with
  | some i => r.getD i none
  | none => none

/-- The column `c` of `t` as a list of cells, in row order (`df[c]`). -/
def colVals (t : Table) (c : String) : List Cell :=
  t.rows.map (fun r => rowCell t.cols r c)

/-- `df.empty` in pandas: true when either axis has length zero. -/
def Table.isEmpty (t : Table) : Bool :=
  t.rows.isEmpty || t.cols.isEmpty

/-- Does the first character list start with the second? -/
def charsStartWith : List Char → List Char → Bool
  | _, [] => true
  | [], _ :: _ => false
  | b :: bs, a :: as => a = b && charsStartWith bs as

/-- Does `hay` contain `needle` as a contiguous run? -/
def charsContain (hay needle : List Char) : Bool :=
  match hay with
  | [] => charsStartWith [] needle
  | _ :: rest => charsStartWith hay needle || charsContain rest needle

/-- Substring test, modelling Python's `needle in s`. -/
def containsSub (needle s : String) : Bool :=
  charsContain s.data needle.data

/-- Python's `str.strip()`: drop whitespace from both ends. -/
def strTrim (s : String) : String :=
  ⟨((s.data.dropWhile Char.isWhitespace).reverse.dropWhile Char.isWhitespace).reverse⟩

/-- Python's `str.upper()` on the characters of `s`. -/
def strUpper (s : String) : String :=
  ⟨s.data.map Char.toUpper⟩

/-- `deduplicate_columns` from the source: a `Counter` of seen names; a repeat
of `col` becomes `f"{col}_{seen[col]}"`, and the counter is bumped either way. -/
def deduplicate_columns (cols : List String) : List String :=
  (cols.foldl
    (fun (acc : List String × (String → Nat)) col =>
      let c := acc.2 col
      let newCol := if c ≠ 0 then col ++ "_" ++ toString c else col
      (acc.1 ++ [newCol], fun x => if x = col then c + 1 else acc.2 x))
    ([], fun _ => 0)).1

/-- Line 78 of the source: `"" if "Unnamed" in str(col) else str(col).strip()`
applied to every column name of a merge-input table (blanking and trimming,
no deduplication). -/
def normalizeMergeCols (cols : List String) : List String :=
  cols.map (fun col => if containsSub "Unnamed" col then "" else strTrim col)

/-- An uploaded file: its name, its byte size, and its parsed content
(`none` when `pd.read_csv` / `pd.read_excel` raises). -/
structure FileInput where
  name : String
  size : Nat
  content : Option Table
deriving Repr, DecidableEq

/-- One-line user-visible diagnostics emitted by the merge loop. -/
inductive Diag where
  | tooLarge (name : String)
  | readError (name : String)
  | schemaMismatch (name : String)
deriving Repr, DecidableEq

/-- The 1 GiB admission bound (`file.size > 1073741824`). -/
def MAX_SIZE : Nat := 1073741824

/-- `pd.concat([a, b], ignore_index=True)`: when the column sequences agree
(or `a` is the fresh empty frame) rows are stacked; otherwise the result's
columns are `a`'s followed by `b`'s new ones, `a`-rows padded with `NaN` and
`b`-rows reindexed by column name. -/
def concatTables (a b : Table) : Table :=
  if a.cols = b.cols then
    { cols := a.cols, rows := a.rows ++ b.rows }
  else if a.cols = [] then
    b
  else
    let newCols := a.cols ++ b.cols.filter (fun c => c ∉ a.cols)
    { cols := newCols,
      rows :=
        a.rows.map (fun r => r ++ List.replicate (newCols.length - a.cols.length) none)
          ++ b.rows.map (fun r => newCols.map (fun c => rowCell b.cols r c)) }

/-- One iteration of the merge loop (source lines 67–86): size check, read,
column blanking/trim, first-row drop when `idx > 0`, schema-mismatch check
against the accumulator, concatenation. -/
def mergeStep (acc : Table × List Diag) (idx : Nat) (f : FileInput) : Table × List Diag :=
  if MAX_SIZE < f.size then
    (acc.1, acc.2 ++ [Diag.tooLarge f.name])
  else
    match f.content with
    | none => (acc.1, acc.2 ++ [Diag.readError f.name])
    | some t =>
      let t1 : Table := { cols := normalizeMergeCols t.cols, rows := t.rows }
      let t2 : Table := if 0 < idx then { cols := t1.cols, rows := t1.rows.tail } else t1
      if ¬ acc.1.isEmpty ∧ t2.cols ≠ acc.1.cols then
        (acc.1, acc.2 ++ [Diag.schemaMismatch f.name])
      else
        (concatTables acc.1 t2, acc.2)

/-- The merge loop from index `idx` onwards. -/
def mergeFilesAux (idx : Nat) (files : List FileInput) (acc : Table × List Diag) :
    Table × List Diag :=
  match files with
  | [] => acc
  | f :: fs => mergeFilesAux (idx + 1) fs (mergeStep acc idx f)

/-- The whole merge loop: `merged_df = pd.DataFrame()` then `for idx, file in
enumerate(uploaded_files): ...`, collecting the diagnostics in order. -/
def mergeFiles (files : List FileInput) : Table × List Diag :=
  mergeFilesAux 0 files ({ cols := [], rows := [] }, [])

/-- Loading the mapping file (source lines 102–105): parse, then
`map_df.columns = deduplicate_columns(map_df.columns)`.  There is no size
check on this path. -/
def readMappingFile (f : FileInput) : Option Table :=
  match f.content with
  | none => none
  | some t => some { cols := deduplicate_columns t.cols, rows := t.rows }

/-- Key normalization of one cell: `.astype(str).str.strip().str.upper()`.
`astype(str)` turns `NaN` into the string `"nan"`, hence `"NAN"`. -/
def normKeyCell (c : Cell) : String :=
  match c with
  | some s => strUpper (strTrim s)
  | none => "NAN"

/-- Source lines 117–118: overwrite the key column of a table with its
normalized form, in place.  (When the column is absent pandas raises and the
whole lookup aborts; `performLookup` guards that case.) -/
def normalizeKeyCol (t : Table) (k : String) : Table :=
  match colIdx? t.cols k with
  | some i =>
    { cols := t.cols,
      rows := t.rows.map (fun r => r.set i (some (normKeyCell (r.getD i none)))) }
  | none => t

/-- Join/dict key equality: two cells match when both are present and equal
(`NaN` never matches, as in pandas joins). -/
def cellMatch (a b : Cell) : Bool :=
  match a, b with
  | some x, some y => x == y
  | _, _ => false

/-- The two-column projection `map_df[[key_col_map, value_col_map]]` as
(key, value) pairs in row order. -/
def projectPairs (m : Table) (kM v : String) : List (Cell × Cell) :=
  m.rows.map (fun r => (rowCell m.cols r kM, rowCell m.cols r v))

/-- `dict(zip(map_df[kM], map_df[v]))` applied to `key`: the last pair whose
key matches wins (later duplicates overwrite earlier dict entries). -/
def dictLookup (pairs : List (Cell × Cell)) (key : String) : Option Cell :=
  (pairs.reverse.find? (fun p => cellMatch (some key) p.1)).map (fun p => p.2)

/-- The `map` branch values: `merged_df[kT].map(lookup_dict).fillna("Not
Matched")` — a missing key, a key absent from the dict, and a matched `NaN`
value all yield the sentinel. -/
def mapColVals (t : Table) (kT : String) (pairs : List (Cell × Cell)) : List Cell :=
  (colVals t kT).map (fun c =>
    match c with
    | some s =>
      match dictLookup pairs s with
      | some (some v) => some v
      | some none => some "Not Matched"
      | none => some "Not Matched"
    | none => some "Not Matched")

/-- `df[name] = vals`: overwrite the column when present, append it at the
end otherwise. -/
def setCol (t : Table) (name : String) (vals : List Cell) : Table :=
  match colIdx? t.cols name with
  | some i =>
    { cols := t.cols, rows := (t.rows.zip vals).map (fun p => p.1.set i p.2) }
  | none =>
    { cols := t.cols ++ [name],
      rows := (t.rows.zip vals).map (fun p => p.1 ++ [p.2]) }

/-- Models `merged_df.merge(temp_df, left_on=kT, right_on=kM, how="left")`
where `temp_df` holds the `pairs` under columns `[kM, newName]`.  When
`kM = kT` pandas coalesces the key into the existing column and only
`newName` is appended; otherwise both right columns are appended.  The
theorems only use configurations in which the appended names do not collide
with `t`'s labels, so pandas's `_x`/`_y` suffixing is not modelled. -/
def leftJoin (t : Table) (kT : String) (pairs : List (Cell × Cell))
    (kM newName : String) : Table :=
  { cols := t.cols ++ (if kM = kT then [newName] else [kM, newName]),
    rows := t.rows.flatMap (fun r =>
      let key := rowCell t.cols r kT
      let hits := pairs.filter (fun p => cellMatch key p.1)
      if hits.isEmpty then
        [r ++ (if kM = kT then [none] else [none, none])]
      else
        hits.map (fun p => r ++ (if kM = kT then [p.2] else [p.1, p.2]))) }

/-- `merged_df[name] = merged_df.get(name, ...).fillna("Not Matched")`:
replace every `NaN` of the named column by the sentinel. -/
def fillnaCol (t : Table) (name : String) : Table :=
  match colIdx? t.cols name with
  | some i =>
    { cols := t.cols,
      rows := t.rows.map (fun r => r.set i (some ((r.getD i none).getD "Not Matched"))) }
  | none => t

/-- One iteration of the value-column loop (source lines 122–135): `none`
models the per-column exception path (the requested value column is absent
from the mapping table), which reports and continues. -/
def lookupColStep (m : Table) (kT kM : String) (method : String)
    (t : Table) (v : String) : Option Table :=
  if v ∈ m.cols then
    if method = "merge" then
      some (fillnaCol (leftJoin t kT (projectPairs m kM v) kM (v ++ "_mapped"))
        (v ++ "_mapped"))
    else
      some (setCol t (v ++ "_mapped") (mapColVals t kT (projectPairs m kM v)))
  else none

/-- `col_data = df.pop(n); df.insert(0, n, col_data)`: move the named column
(and its cells) to the front. -/
def moveToFront (t : Table) (n : String) : Table :=
  match colIdx? t.cols n with
  | some i =>
    { cols := n :: t.cols.eraseIdx i,
      rows := t.rows.map (fun r => r.getD i none :: r.eraseIdx i) }
  | none => t

/-- Source lines 137–139: `for col in reversed(mapped_columns): pop; insert 0`. -/
def reorderFront (t : Table) (names : List String) : Table :=
  names.reverse.foldl moveToFront t

/-- No row of the (key-normalized) mapping table `m` matches the key cell
`key` — the claim's "normalized key has no corresponding row in M". -/
def noKeyMatch (m : Table) (kM : String) (key : Cell) : Bool :=
  m.rows.all (fun r => !(cellMatch key (rowCell m.cols r kM)))

/-- One pass of the `for value_col_map in value_cols_to_map` loop on the
accumulated `(merged_df, mapped_columns)` state: a successful step installs
the new column and records its name; a failed one reports and continues. -/
def lookupFoldStep (m1 : Table) (kT kM method : String)
    (acc : Table × List String) (v : String) : Table × List String :=
  match lookupColStep m1 kT kM method acc.1 v with
  | some tNew => (tNew, acc.2 ++ [v ++ "_mapped"])
  | none => acc

/-- The whole lookup (source lines 116–139): normalize both key columns in
place, run the value-column loop collecting the created `_mapped` names,
then move those columns to the front.  `none` models the outer exception
path (a key column is absent, so step 1 raises). -/
def performLookup (t m : Table) (kT kM : String) (vcols : List String)
    (method : String) : Option (Table × List String) :=
  if kT ∈ t.cols ∧ kM ∈ m.cols then
    let t1 := normalizeKeyCol t kT
    let m1 := normalizeKeyCol m kM
    let res := vcols.foldl (lookupFoldStep m1 kT kM method) (t1, [])
    some (reorderFront res.1 res.2, res.2)
  else none

/-! ## Helper lemmas -/

theorem colIdx?_lt_length {cols : List String} {c : String} {i : Nat}
    (h : colIdx? cols c = some i) : i < cols.length := by
  induction cols generalizing i with
  | nil => simp [colIdx?] at h
  | cons a rest ih =>
    by_cases hac : a = c
    · simp [colIdx?, hac] at h
      simp only [List.length_cons]
      omega
    · simp [colIdx?, hac] at h
      obtain ⟨j, hj, rfl⟩ := h
      have := ih hj
      simp only [List.length_cons]
      omega

theorem table_eta (t : Table) : (⟨t.cols, t.rows⟩ : Table) = t := by
  cases t
  rfl

theorem isEmpty_false_iff (t : Table) :
    t.isEmpty = false ↔ (t.rows ≠ [] ∧ t.cols ≠ []) := by
  simp [Table.isEmpty]

theorem concat_empty_rows (b : Table) : (concatTables ⟨[], []⟩ b).rows = b.rows := by
  unfold concatTables
  split_ifs with h1 h2
  · simp
  · rfl
  · simp at h2

theorem mergeStep_rejected (T : Table) (ds : List Diag) (idx : Nat) (f : FileInput)
    (h : MAX_SIZE < f.size ∨ f.content = none) :
    ∃ d, mergeStep (T, ds) idx f = (T, ds ++ [d]) := by
  rcases h with h | h
  · refine ⟨Diag.tooLarge f.name, ?_⟩
    simp [mergeStep, h]
  · by_cases hs : MAX_SIZE < f.size
    · refine ⟨Diag.tooLarge f.name, ?_⟩
      simp [mergeStep, hs]
    · refine ⟨Diag.readError f.name, ?_⟩
      simp [mergeStep, hs, h]

theorem mergeFilesAux_rejected (fs : List FileInput) (rest : List FileInput)
    (hrej : ∀ f ∈ fs, MAX_SIZE < f.size ∨ f.content = none) :
    ∀ idx (T : Table) (ds : List Diag), ∃ ds2,
      mergeFilesAux idx (fs ++ rest) (T, ds) =
        mergeFilesAux (idx + fs.length) rest (T, ds2) := by
  induction fs with
  | nil => intro idx T ds; exact ⟨ds, by simp [mergeFilesAux]⟩
  | cons f fs ih =>
    intro idx T ds
    obtain ⟨d, hd⟩ := mergeStep_rejected T ds idx f (hrej f (by simp))
    obtain ⟨ds2, h2⟩ := ih (fun g hg => hrej g (by simp [hg])) (idx + 1) T (ds ++ [d])
    refine ⟨ds2, ?_⟩
    have harith : idx + 1 + fs.length = idx + (fs.length + 1) := by omega
    simp only [List.cons_append, mergeFilesAux, hd, List.append_eq, h2, List.length_cons, harith]

theorem concat_empty (b : Table) : concatTables ⟨[], []⟩ b = b := by
  obtain ⟨bc, br⟩ := b
  unfold concatTables
  split_ifs with h1 h2
  · simp only at h1
    simp [← h1]
  · rfl
  · simp at h2

theorem mergeStep_first (n : String) (s : Nat) (A : Table)
    (hs : ¬ MAX_SIZE < s) (hn : normalizeMergeCols A.cols = A.cols) :
    mergeStep (⟨[], []⟩, []) 0 ⟨n, s, some A⟩ = (A, []) := by
  simp only [mergeStep, hs, if_false, Table.isEmpty, List.isEmpty_nil, Bool.true_or,
    not_true_eq_false, false_and, if_neg, hn]
  simp [concat_empty, table_eta]

/-! ## Claim theorems -/

/-- C1: for readable, size-admissible tables `A`, `B` whose column names are
stable under the blanking/trim rule, with `A` non-empty and `B` having at
least one row: if the column sequences coincide, merging `[A, B]` yields a
table with `A`'s columns and `len A + len B - 1` rows (B's first row
dropped) and no diagnostics; if they differ, the result equals `A` alone and
exactly one schema-mismatch diagnostic is reported for `B`. -/
theorem merge_pair_schema_equality (nA nB : String) (sA sB : Nat) (A B : Table)
    (hsA : ¬ MAX_SIZE < sA) (hsB : ¬ MAX_SIZE < sB)
    (hnA : normalizeMergeCols A.cols = A.cols) (hnB : normalizeMergeCols B.cols = B.cols)
    (hAcols : A.cols ≠ []) (hArows : A.rows ≠ []) (hBrows : B.rows ≠ []) :
    (A.cols = B.cols →
      mergeFiles [⟨nA, sA, some A⟩, ⟨nB, sB, some B⟩]
          = (⟨A.cols, A.rows ++ B.rows.tail⟩, []) ∧
      (A.rows ++ B.rows.tail).length = A.rows.length + B.rows.length - 1) ∧
    (A.cols ≠ B.cols →
      mergeFiles [⟨nA, sA, some A⟩, ⟨nB, sB, some B⟩]
          = (⟨A.cols, A.rows⟩, [Diag.schemaMismatch nB])) := by
  have hBlen : 1 ≤ B.rows.length := by
    have := List.length_pos.mpr hBrows
    omega
  have hAe : A.isEmpty = false := (isEmpty_false_iff A).mpr ⟨hArows, hAcols⟩
  have hloop : mergeFiles [⟨nA, sA, some A⟩, ⟨nB, sB, some B⟩]
      = mergeStep (A, []) 1 ⟨nB, sB, some B⟩ := by
    simp only [mergeFiles, mergeFilesAux, mergeStep_first nA sA A hsA hnA]
  constructor
  · intro hEq
    refine ⟨?_, ?_⟩
    · rw [hloop]
      simp only [mergeStep, hsB, if_false, hnB, hAe, Nat.lt_irrefl, if_neg]
      have hcond : ¬ (¬ ({ cols := B.cols, rows := B.rows.tail } : Table).cols ≠ A.cols
          → False) := by simp [hEq]
      simp only [Nat.zero_lt_one, if_true, hAe, Bool.false_eq_true, not_false_eq_true,
        true_and, ← hEq, ne_eq, not_true_eq_false, if_false]
      unfold concatTables
      simp
    · simp only [List.length_append]
      have ht : B.rows.tail.length = B.rows.length - 1 := by
        simp [List.length_tail]
      omega
  · intro hNe
    rw [hloop]
    simp only [mergeStep, hsB, if_false, hnB, hAe, Bool.false_eq_true, not_false_eq_true,
      Nat.zero_lt_one, if_true, true_and, ne_eq]
    have : ¬ B.cols = A.cols := fun h => hNe h.symm
    simp [this]

/-- Witness for C1: two one-and-two-row tables with identical columns merge
into a table with those columns and 1 + 2 - 1 = 2 rows. -/
theorem merge_pair_schema_equality_witness :
    mergeFiles [⟨"a.csv", 5, some ⟨["k"], [[some "1"]]⟩⟩,
                ⟨"b.csv", 7, some ⟨["k"], [[some "1"], [some "2"]]⟩⟩]
      = (⟨["k"], [[some "1"], [some "2"]]⟩, []) := by
  have h := (merge_pair_schema_equality "a.csv" "b.csv" 5 7
      ⟨["k"], [[some "1"]]⟩ ⟨["k"], [[some "1"], [some "2"]]⟩
      (by decide) (by decide) (by decide) (by decide)
      (by decide) (by decide) (by decide)).1 rfl
  simpa using h.1

/-- C2 counterexample: with a zero-row (but column-bearing) accumulator — the
first file parsed to columns `["a"]` and no rows — a second file with the
different columns `["b"]` is NOT rejected: no schema-mismatch diagnostic is
emitted and its surviving row is appended under a union of the two schemas. -/
theorem schema_reject_zero_rows_cex :
    mergeFiles [⟨"a.csv", 10, some ⟨["a"], []⟩⟩,
                ⟨"b.csv", 10, some ⟨["b"], [[some "1"], [some "2"]]⟩⟩]
      = (⟨["a", "b"], [[none, some "2"]]⟩, []) := by decide

/-- C2 (amended): a readable, size-admissible table is rejected with a
schema-mismatch diagnostic (and the accumulator left unchanged) exactly when
the accumulator has at least one row AND at least one column and the table's
normalized column sequence differs from the accumulator's; an accumulator
with columns but zero rows is pandas-`empty`, so the check is skipped. -/
theorem mergeStep_reject_iff (acc : Table) (ds : List Diag) (idx : Nat)
    (f : FileInput) (t : Table)
    (hs : ¬ MAX_SIZE < f.size) (hc : f.content = some t) :
    mergeStep (acc, ds) idx f = (acc, ds ++ [Diag.schemaMismatch f.name])
      ↔ (acc.rows ≠ [] ∧ acc.cols ≠ [] ∧ normalizeMergeCols t.cols ≠ acc.cols) := by
  simp only [mergeStep, hs, if_false, hc]
  have hcols : (if 0 < idx then
      ({ cols := normalizeMergeCols t.cols, rows := t.rows.tail } : Table)
      else { cols := normalizeMergeCols t.cols, rows := t.rows }).cols
      = normalizeMergeCols t.cols := by
    split <;> rfl
  by_cases hE : acc.isEmpty = true
  · have hrc : ¬ (acc.rows ≠ [] ∧ acc.cols ≠ [] ∧ normalizeMergeCols t.cols ≠ acc.cols) := by
      intro ⟨h1, h2, _⟩
      have hf := (isEmpty_false_iff acc).mpr ⟨h1, h2⟩
      rw [hE] at hf
      simp at hf
    rw [if_neg]
    · constructor
      · intro hEqn
        have := congrArg Prod.snd hEqn
        simp only at this
        have := congrArg List.length this
        simp at this
      · intro h
        exact absurd h hrc
    · intro ⟨h1, _⟩
      exact h1 hE
  · have hEf : acc.isEmpty = false := by simp_all
    have hre := (isEmpty_false_iff acc).mp hEf
    by_cases hne : normalizeMergeCols t.cols ≠ acc.cols
    · rw [if_pos]
      · exact iff_of_true rfl ⟨hre.1, hre.2, hne⟩
      · refine ⟨by simp [hE], ?_⟩
        rw [hcols]
        exact hne
    · rw [if_neg]
      · constructor
        · intro hEqn
          have := congrArg Prod.snd hEqn
          simp only at this
          have := congrArg List.length this
          simp at this
        · intro h
          exact absurd h.2.2 hne
      · intro ⟨_, h2⟩
        rw [hcols] at h2
        exact hne h2

/-- Witness for C2's amended rule: a one-row accumulator with columns `["a"]`
rejects a table with columns `["b"]`, leaving the accumulator unchanged. -/
theorem mergeStep_reject_iff_witness :
    mergeStep (⟨["a"], [[some "x"]]⟩, []) 1 ⟨"b.csv", 10, some ⟨["b"], [[some "y"]]⟩⟩
      = (⟨["a"], [[some "x"]]⟩, [Diag.schemaMismatch "b.csv"]) := by
  have h := (mergeStep_reject_iff ⟨["a"], [[some "x"]]⟩ [] 1
      ⟨"b.csv", 10, some ⟨["b"], [[some "y"]]⟩⟩ ⟨["b"], [[some "y"]]⟩
      (by decide) rfl).mpr ⟨by decide, by decide, by decide⟩
  simpa using h

/-- C3 counterexample: the first file is rejected as oversized, so the second
file is the first table accepted into the merge — yet its first row is still
dropped (the drop is keyed on `idx > 0`), leaving one row instead of two. -/
theorem first_accepted_drop_cex :
    mergeFiles [⟨"big.csv", MAX_SIZE + 1, some ⟨["a"], [[some "p"], [some "q"]]⟩⟩,
                ⟨"ok.csv", 10, some ⟨["a"], [[some "x"], [some "y"]]⟩⟩]
      = (⟨["a"], [[some "y"]]⟩, [Diag.tooLarge "big.csv"]) := by decide

/-- C3 (amended): the first-row drop is positional, not acceptance-based — a
readable, size-admissible file keeps its first row exactly when it sits at
index 0 of the upload sequence; after any non-empty prefix of rejected
(oversized or unreadable) files, the first accepted table still loses its
first row. -/
theorem first_row_drop_is_positional (fs : List FileInput) (g : FileInput) (t : Table)
    (hrej : ∀ f ∈ fs, MAX_SIZE < f.size ∨ f.content = none)
    (hs : ¬ MAX_SIZE < g.size) (hc : g.content = some t) :
    (mergeFiles (fs ++ [g])).1.rows = if fs = [] then t.rows else t.rows.tail := by
  obtain ⟨ds2, h2⟩ := mergeFilesAux_rejected fs [g] hrej 0 ⟨[], []⟩ []
  unfold mergeFiles
  rw [h2]
  simp only [mergeFilesAux]
  simp only [mergeStep, hs, if_false, hc, Table.isEmpty, List.isEmpty_nil, Bool.true_or,
    not_true_eq_false, false_and, if_neg, Nat.zero_add]
  cases fs with
  | nil => simp [concat_empty_rows]
  | cons f fs' => simp [concat_empty_rows]

/-- Witness for C3's amended rule: after an unreadable first file, the second
file's first row is dropped. -/
theorem first_row_drop_is_positional_witness :
    (mergeFiles [⟨"u.csv", 3, none⟩,
                 ⟨"v.csv", 3, some ⟨["c"], [[some "r1"], [some "r2"]]⟩⟩]).1.rows
      = [[some "r2"]] := by
  have h := first_row_drop_is_positional [⟨"u.csv", 3, none⟩]
      ⟨"v.csv", 3, some ⟨["c"], [[some "r1"], [some "r2"]]⟩⟩
      ⟨["c"], [[some "r1"], [some "r2"]]⟩
      (by
        intro f hf
        rw [List.mem_singleton] at hf
        subst hf
        exact Or.inr rfl)
      (by decide) rfl
  simpa using h

/-- C7 counterexample: mapping-table column handling is `deduplicate_columns`
only — the header `["", "Unnamed: 0"]` has no duplicates and is left
unchanged, not normalized to the claimed `["", "_1"]`. -/
theorem mapping_header_cex :
    readMappingFile ⟨"map.csv", 10, some ⟨["", "Unnamed: 0"], []⟩⟩
        = some ⟨["", "Unnamed: 0"], []⟩ ∧
    (["", "Unnamed: 0"] : List String) ≠ ["", "_1"] := by
  constructor <;> decide

/-- C7 (amended): the mapping table receives deduplication only — no blanking
or trimming — so `["", "Unnamed: 0"]` is unchanged; duplicates get `_1`,
`_2`, … suffixes (`["x","x","x"]` becomes `["x","x_1","x_2"]`); the
blanking/trim rule applies only to merge-input tables, where
`["", "Unnamed: 0"]` becomes `["", ""]` (blanking followed by deduplication
WOULD give `["", "_1"]`, but the code never composes the two). -/
theorem mapping_normalization_dedup_only :
    readMappingFile ⟨"map.csv", 10, some ⟨["", "Unnamed: 0"], []⟩⟩
        = some ⟨["", "Unnamed: 0"], []⟩ ∧
    deduplicate_columns ["x", "x", "x"] = ["x", "x_1", "x_2"] ∧
    normalizeMergeCols ["", "Unnamed: 0"] = ["", ""] ∧
    deduplicate_columns (normalizeMergeCols ["", "Unnamed: 0"]) = ["", "_1"] := by
  refine ⟨by decide, by decide, by decide, by decide⟩

/-- C8 counterexample: the lookup's key normalization (source lines 117–118)
overwrites the mapping table's key column in place — the cell `" a"` becomes
`"A"` — so the mapping table is mutated, contradicting read-only-ness. -/
theorem mapping_table_mutated_cex :
    normalizeKeyCol ⟨["ID", "Name"], [[some " a", some "Bob"]]⟩ "ID"
        ≠ ⟨["ID", "Name"], [[some " a", some "Bob"]]⟩ := by decide

/-- C9 (code bug): `deduplicate_columns` can emit duplicate names — on
`["x", "x_1", "x"]` the third column is renamed `"x_1"`, colliding with the
second column, so the output is not pairwise distinct. -/
theorem deduplicate_columns_collision :
    deduplicate_columns ["x", "x_1", "x"] = ["x", "x_1", "x_1"] ∧
    ¬ (deduplicate_columns ["x", "x_1", "x"]).Nodup := by
  constructor <;> decide

/-- C10 counterexample: the mapping file has no size check — a mapping file
exceeding 1 GiB is parsed anyway, with no diagnostic. -/
theorem mapping_file_oversize_cex :
    readMappingFile ⟨"map.csv", MAX_SIZE + 1, some ⟨["ID"], [[some "A"]]⟩⟩
        = some ⟨["ID"], [[some "A"]]⟩ := by decide

/-- C10 (amended): a merge-input file exceeding 1 GiB is rejected with a
diagnostic naming the file before its content is ever inspected (the result
does not depend on the content at all); the mapping file, by contrast, has
no size check and is parsed whatever its size. -/
theorem size_check_merge_inputs_only (T : Table) (ds : List Diag) (idx : Nat)
    (f : FileInput) (hf : MAX_SIZE < f.size) (mf : FileInput) (mt : Table)
    (hmf : mf.content = some mt) :
    mergeStep (T, ds) idx f = (T, ds ++ [Diag.tooLarge f.name]) ∧
    readMappingFile mf = some ⟨deduplicate_columns mt.cols, mt.rows⟩ := by
  constructor
  · simp [mergeStep, hf]
  · simp [readMappingFile, hmf]

/-- Witness for C10's amended rule, with an oversized mapping file that is
still parsed. -/
theorem size_check_merge_inputs_only_witness :
    mergeStep (⟨[], []⟩, []) 0 ⟨"big.csv", MAX_SIZE + 1, some ⟨["a"], [[some "p"]]⟩⟩
        = (⟨[], []⟩, [Diag.tooLarge "big.csv"]) ∧
    readMappingFile ⟨"hugemap.csv", MAX_SIZE + 1, some ⟨["ID"], [[some "B"]]⟩⟩
        = some ⟨["ID"], [[some "B"]]⟩ := by
  have h := size_check_merge_inputs_only ⟨[], []⟩ [] 0
      ⟨"big.csv", MAX_SIZE + 1, some ⟨["a"], [[some "p"]]⟩⟩ (by decide)
      ⟨"hugemap.csv", MAX_SIZE + 1, some ⟨["ID"], [[some "B"]]⟩⟩
      ⟨["ID"], [[some "B"]]⟩ rfl
  simpa using h

/-- C8 (amended): the lookup mutates the mapping table, but only its key
column: the column names and row count are unchanged, every cell outside the
key column keeps its value, and every key-column cell is replaced by its
normalized form. -/
theorem mapping_mutation_scope (m : Table) (kM : String) (i : Nat)
    (hWF : m.WF) (hi : colIdx? m.cols kM = some i) :
    (normalizeKeyCol m kM).cols = m.cols ∧
    (normalizeKeyCol m kM).rows.length = m.rows.length ∧
    (∀ k j, j ≠ i →
      ((normalizeKeyCol m kM).rows.getD k []).getD j none
        = (m.rows.getD k []).getD j none) ∧
    (∀ k, k < m.rows.length →
      ((normalizeKeyCol m kM).rows.getD k []).getD i none
        = some (normKeyCell ((m.rows.getD k []).getD i none))) := by
  simp only [normalizeKeyCol, hi]
  refine ⟨by trivial, by simp, ?_, ?_⟩
  · intro k j hj
    simp only [List.getD_eq_getElem?_getD, List.getElem?_map]
    cases hk : m.rows[k]? with
    | none => simp
    | some r =>
      simp only [Option.map_some', Option.getD_some]
      rw [List.getElem?_set_ne (Ne.symm hj)]
  · intro k hk
    simp only [List.getD_eq_getElem?_getD, List.getElem?_map,
      List.getElem?_eq_getElem hk]
    simp only [Option.map_some', Option.getD_some]
    have hr : m.rows[k] ∈ m.rows := List.getElem_mem hk
    have hilt : i < (m.rows[k]).length := by
      rw [hWF _ hr]
      exact colIdx?_lt_length hi
    rw [List.getElem?_set_eq_of_lt _ hilt]
    simp

/-- Witness for C8's amended rule: normalizing the key column leaves the
`Name` cell untouched. -/
theorem mapping_mutation_scope_witness :
    ((normalizeKeyCol ⟨["ID", "Name"], [[some " a", some "Bob"]]⟩ "ID").rows.getD 0 []).getD 1 none
        = some "Bob" := by
  have h := (mapping_mutation_scope ⟨["ID", "Name"], [[some " a", some "Bob"]]⟩ "ID" 0
      (by
        intro r hr
        rw [List.mem_singleton] at hr
        subst hr
        rfl)
      (by decide)).2.2.1 0 1 (by decide)
  simpa using h

theorem normalizeKeyCol_cols (t : Table) (k : String) :
    (normalizeKeyCol t k).cols = t.cols := by
  unfold normalizeKeyCol
  cases colIdx? t.cols k <;> rfl

theorem normalizeKeyCol_rows_length (t : Table) (k : String) :
    (normalizeKeyCol t k).rows.length = t.rows.length := by
  unfold normalizeKeyCol
  cases colIdx? t.cols k <;> simp

theorem mapColVals_length (t : Table) (kT : String) (pairs : List (Cell × Cell)) :
    (mapColVals t kT pairs).length = t.rows.length := by
  simp [mapColVals, colVals]

theorem setCol_rows_length (t : Table) (n : String) (vals : List Cell)
    (h : vals.length = t.rows.length) :
    (setCol t n vals).rows.length = t.rows.length := by
  unfold setCol
  cases colIdx? t.cols n <;> simp [h]

theorem fillnaCol_rows_length (t : Table) (n : String) :
    (fillnaCol t n).rows.length = t.rows.length := by
  unfold fillnaCol
  cases colIdx? t.cols n <;> simp

theorem length_le_flatMap {α β : Type} (l : List α) (f : α → List β)
    (h : ∀ a, 1 ≤ (f a).length) : l.length ≤ (l.flatMap f).length := by
  induction l with
  | nil => simp
  | cons a as ih =>
    simp only [List.flatMap_cons, List.length_append, List.length_cons]
    have := h a
    omega

theorem leftJoin_rows_length_ge (t : Table) (kT kM newName : String)
    (pairs : List (Cell × Cell)) :
    t.rows.length ≤ (leftJoin t kT pairs kM newName).rows.length := by
  simp only [leftJoin]
  apply length_le_flatMap
  intro r
  dsimp only
  by_cases h : (pairs.filter (fun p => cellMatch (rowCell t.cols r kT) p.1)).isEmpty
  · simp [h]
  · have hne : pairs.filter (fun p => cellMatch (rowCell t.cols r kT) p.1) ≠ [] := by
      simpa [List.isEmpty_iff] using h
    rw [if_neg h, List.length_map]
    exact List.length_pos.mpr hne

theorem moveToFront_rows_length (t : Table) (n : String) :
    (moveToFront t n).rows.length = t.rows.length := by
  unfold moveToFront
  cases colIdx? t.cols n <;> simp

theorem reorderFront_rows_length (t : Table) (ns : List String) :
    (reorderFront t ns).rows.length = t.rows.length := by
  unfold reorderFront
  generalize ns.reverse = l
  induction l generalizing t with
  | nil => rfl
  | cons a as ih =>
    rw [List.foldl_cons, ih, moveToFront_rows_length]

theorem lookupColStep_len_merge (m t t2 : Table) (kT kM v : String)
    (h : lookupColStep m kT kM "merge" t v = some t2) :
    t.rows.length ≤ t2.rows.length := by
  unfold lookupColStep at h
  split at h
  · rw [if_pos rfl] at h
    injection h with h2
    rw [← h2, fillnaCol_rows_length]
    exact leftJoin_rows_length_ge _ _ _ _ _
  · exact absurd h (by simp)

theorem lookupColStep_len_map (m t t2 : Table) (kT kM method v : String)
    (hm : method ≠ "merge")
    (h : lookupColStep m kT kM method t v = some t2) :
    t2.rows.length = t.rows.length := by
  unfold lookupColStep at h
  by_cases hv : v ∈ m.cols
  · rw [if_pos hv, if_neg hm] at h
    injection h with h2
    rw [← h2]
    exact setCol_rows_length _ _ _ (mapColVals_length _ _ _)
  · rw [if_neg hv] at h
    exact absurd h (by simp)

theorem lookupFold_len_merge (m1 : Table) (kT kM : String) (vcs : List String) :
    ∀ acc : Table × List String,
      acc.1.rows.length ≤ ((vcs.foldl (lookupFoldStep m1 kT kM "merge") acc).1).rows.length := by
  induction vcs with
  | nil => intro acc; simp
  | cons v vs ih =>
    intro acc
    rw [List.foldl_cons]
    refine le_trans ?_ (ih _)
    unfold lookupFoldStep
    cases hstep : lookupColStep m1 kT kM "merge" acc.1 v with
    | none => simp
    | some tN =>
      simp only
      exact lookupColStep_len_merge _ _ _ _ _ _ hstep

theorem lookupFold_len_map (m1 : Table) (kT kM method : String) (hm : method ≠ "merge")
    (vcs : List String) :
    ∀ acc : Table × List String,
      ((vcs.foldl (lookupFoldStep m1 kT kM method) acc).1).rows.length = acc.1.rows.length := by
  induction vcs with
  | nil => intro acc; rfl
  | cons v vs ih =>
    intro acc
    rw [List.foldl_cons, ih]
    unfold lookupFoldStep
    cases hstep : lookupColStep m1 kT kM method acc.1 v with
    | none => simp
    | some tN =>
      simp only
      exact lookupColStep_len_map _ _ _ _ _ _ _ hm hstep

/-- C4: the lookup never removes rows — whenever `performLookup` succeeds,
the `merge` (exact-merge) strategy yields at least as many rows as the
input, and the `map` (first-match-map) strategy yields exactly `len T`
rows. -/
theorem lookup_never_removes_rows (t m : Table) (kT kM : String) (vcols : List String)
    (method : String) (res : Table × List String)
    (h : performLookup t m kT kM vcols method = some res) :
    (method = "merge" → t.rows.length ≤ res.1.rows.length) ∧
    (method = "map" → res.1.rows.length = t.rows.length) := by
  unfold performLookup at h
  split at h
  case isFalse => exact absurd h (by simp)
  case isTrue hg =>
    injection h with h2
    subst h2
    constructor
    · intro hm
      subst hm
      simp only [reorderFront_rows_length]
      have := lookupFold_len_merge (normalizeKeyCol m kM) kT kM vcols
        (normalizeKeyCol t kT, [])
      simpa [normalizeKeyCol_rows_length] using this
    · intro hm
      subst hm
      simp only [reorderFront_rows_length]
      have := lookupFold_len_map (normalizeKeyCol m kM) kT kM "map" (by decide) vcols
        (normalizeKeyCol t kT, [])
      simpa [normalizeKeyCol_rows_length] using this

/-- Witness for C4 on the specification's own scenario: a two-row merged
table looked up under the `map` strategy keeps exactly two rows. -/
theorem lookup_never_removes_rows_witness :
    ((⟨["Name_mapped", "ID"],
       [[some "Bob", some "A1"], [some "Bob", some "A1"]]⟩ : Table), ["Name_mapped"]).1.rows.length
      = (⟨["ID"], [[some "a1"], [some "A1 "]]⟩ : Table).rows.length := by
  exact (lookup_never_removes_rows ⟨["ID"], [[some "a1"], [some "A1 "]]⟩
      ⟨["ID", "Name"], [[some "A1", some "Bob"]]⟩ "ID" "ID" ["Name"] "map"
      (⟨["Name_mapped", "ID"], [[some "Bob", some "A1"], [some "Bob", some "A1"]]⟩, ["Name_mapped"])
      (by decide)).2 rfl

theorem colIdx?_eq_none_iff (l : List String) (c : String) :
    colIdx? l c = none ↔ c ∉ l := by
  induction l with
  | nil => simp [colIdx?]
  | cons a as ih =>
    by_cases hac : a = c
    · simp [colIdx?, hac]
    · simp only [colIdx?, hac, if_false, Option.map_eq_none', ih, List.mem_cons]
      constructor
      · intro h hmem
        rcases hmem with h1 | h1
        · exact hac h1.symm
        · exact h h1
      · intro h h1
        exact h (Or.inr h1)

theorem colIdx?_isSome_of_mem {l : List String} {c : String} (h : c ∈ l) :
    ∃ i, colIdx? l c = some i := by
  cases hc : colIdx? l c with
  | none => exact absurd h ((colIdx?_eq_none_iff l c).mp hc)
  | some i => exact ⟨i, rfl⟩

theorem colIdx?_append_left {l : List String} {c : String} {i : Nat}
    (h : colIdx? l c = some i) (l2 : List String) :
    colIdx? (l ++ l2) c = some i := by
  induction l generalizing i with
  | nil => simp [colIdx?] at h
  | cons a as ih =>
    by_cases hac : a = c
    · simp only [colIdx?, hac, if_true, Option.some_inj] at h
      simp [colIdx?, hac, h]
    · simp only [colIdx?, hac, if_false, Option.map_eq_some'] at h
      obtain ⟨j, hj, rfl⟩ := h
      simp only [List.cons_append, colIdx?, List.append_eq, hac, if_false, ih hj,
        Option.map_some']

theorem colIdx?_append_right {l : List String} {c : String}
    (h : c ∉ l) (l2 : List String) :
    colIdx? (l ++ l2) c = (colIdx? l2 c).map (fun j => j + l.length) := by
  induction l with
  | nil => simp
  | cons a as ih =>
    have hac : a ≠ c := fun hh => h (hh ▸ List.mem_cons_self a as)
    have has : c ∉ as := fun hh => h (List.mem_cons_of_mem a hh)
    simp only [List.cons_append, colIdx?, List.append_eq, hac, if_false, ih has]
    cases colIdx? l2 c with
    | none => simp
    | some j =>
      simp only [Option.map_some', List.length_cons, Option.some_inj]
      omega

theorem getD_append_lt {r ex : List Cell} {i : Nat} (h : i < r.length) :
    (r ++ ex).getD i none = r.getD i none := by
  simp only [List.getD_eq_getElem?_getD]
  rw [List.getElem?_append_left h]

theorem getD_append_length (r : List Cell) (x : Cell) (ex : List Cell) :
    ((r ++ x :: ex).getD r.length none) = x := by
  induction r with
  | nil => rfl
  | cons a as ih => simpa using ih

theorem set_append_length (r : List Cell) (x v : Cell) (ex : List Cell) :
    (r ++ x :: ex).set r.length v = r ++ v :: ex := by
  induction r with
  | nil => rfl
  | cons a as ih => simpa using ih

theorem rowCell_append_of_mem {l : List String} {r : List Cell} {c : String}
    (hc : c ∈ l) (hlen : r.length = l.length) (ext : List String) (ex : List Cell) :
    rowCell (l ++ ext) (r ++ ex) c = rowCell l r c := by
  obtain ⟨i, hi⟩ := colIdx?_isSome_of_mem hc
  rw [rowCell, rowCell, hi, colIdx?_append_left hi]
  have hlt : i < r.length := by
    rw [hlen]
    exact colIdx?_lt_length hi
  exact getD_append_lt hlt

theorem rowCell_append_new {l : List String} {r : List Cell} {n : String} {x : Cell}
    (hn : n ∉ l) (hlen : r.length = l.length) (ext : List String) (ex : List Cell) :
    rowCell (l ++ n :: ext) (r ++ x :: ex) n = x := by
  rw [rowCell, colIdx?_append_right hn]
  have h0 : colIdx? (n :: ext) n = some 0 := by simp [colIdx?]
  rw [h0]
  simp only [Option.map_some', Nat.zero_add]
  rw [← hlen]
  exact getD_append_length r x ex

theorem rowCell_cons_ne {d c : String} (h : d ≠ c) (ls : List String)
    (y : Cell) (rs : List Cell) :
    rowCell (d :: ls) (y :: rs) c = rowCell ls rs c := by
  rw [rowCell, rowCell]
  simp only [colIdx?, h, if_false]
  cases colIdx? ls c <;> simp

theorem rowCell_cons_self (d : String) (ls : List String) (y : Cell) (rs : List Cell) :
    rowCell (d :: ls) (y :: rs) d = y := by
  rw [rowCell]
  simp [colIdx?]

theorem eraseIdx_colIdx? {l : List String} {n : String} :
    ∀ {i : Nat}, colIdx? l n = some i → l.eraseIdx i = l.erase n := by
  induction l with
  | nil => intro i h; simp [colIdx?] at h
  | cons a as ih =>
    intro i h
    by_cases han : a = n
    · subst han
      rw [colIdx?, if_pos rfl] at h
      injection h with h0
      rw [← h0]
      simp [List.eraseIdx]
    · rw [colIdx?, if_neg han] at h
      cases hj : colIdx? as n with
      | none => rw [hj] at h; simp at h
      | some j =>
        rw [hj] at h
        simp only [Option.map_some', Option.some_inj] at h
        rw [← h]
        rw [List.erase_cons_tail (by simp [han])]
        simp only [List.eraseIdx]
        rw [ih hj]

theorem rowCell_move {n : String} : ∀ (l : List String) {i : Nat} {r : List Cell},
    colIdx? l n = some i → r.length = l.length →
    ∀ c, rowCell (n :: l.eraseIdx i) (r.getD i none :: r.eraseIdx i) c = rowCell l r c := by
  intro l
  induction l with
  | nil => intro i r hi _ c; simp [colIdx?] at hi
  | cons a as ih =>
    intro i r hi hlen c
    cases r with
    | nil => simp at hlen
    | cons x rs =>
      have hlen2 : rs.length = as.length := by simpa using hlen
      by_cases han : a = n
      · subst han
        rw [colIdx?, if_pos rfl] at hi
        injection hi with hi0
        rw [← hi0]
        simp only [List.eraseIdx, List.getD_cons_zero]
      · rw [colIdx?, if_neg han] at hi
        cases hj : colIdx? as n with
        | none => rw [hj] at hi; simp at hi
        | some j =>
          rw [hj] at hi
          simp only [Option.map_some', Option.some_inj] at hi
          rw [← hi]
          simp only [List.eraseIdx, List.getD_cons_succ]
          by_cases hcn : c = n
          · subst hcn
            rw [rowCell_cons_self]
            rw [rowCell_cons_ne han]
            rw [rowCell, hj]
          · by_cases hca : c = a
            · subst hca
              rw [rowCell_cons_ne (fun hh => hcn hh.symm)]
              rw [rowCell_cons_self, rowCell_cons_self]
            · rw [rowCell_cons_ne (fun hh => hcn hh.symm)]
              rw [rowCell_cons_ne (fun hh => hca hh.symm)]
              rw [rowCell_cons_ne (fun hh => hca hh.symm)]
              have hmove := ih hj hlen2 c
              rw [rowCell_cons_ne (fun hh => hcn hh.symm)] at hmove
              exact hmove

theorem moveToFront_spec (T : Table) (n : String) {i : Nat}
    (hi : colIdx? T.cols n = some i) :
    moveToFront T n =
      ⟨n :: T.cols.erase n,
       T.rows.map (fun r => r.getD i none :: r.eraseIdx i)⟩ := by
  unfold moveToFront
  rw [hi]
  dsimp only
  rw [eraseIdx_colIdx? hi]

theorem moveToFront_trace (T : Table) (n : String) (hWF : T.WF) (hn : n ∈ T.cols) :
    (moveToFront T n).WF ∧
    (∀ c, c ∈ (moveToFront T n).cols ↔ c ∈ T.cols) ∧
    (T.cols.Nodup → (moveToFront T n).cols.Nodup) ∧
    (∀ r2 ∈ (moveToFront T n).rows, ∃ r ∈ T.rows,
      ∀ c, rowCell (moveToFront T n).cols r2 c = rowCell T.cols r c) := by
  obtain ⟨i, hi⟩ := colIdx?_isSome_of_mem hn
  have hilt : i < T.cols.length := colIdx?_lt_length hi
  rw [moveToFront_spec T n hi]
  refine ⟨?_, ?_, ?_, ?_⟩
  · intro r2 hr2
    simp only [List.mem_map] at hr2
    obtain ⟨r, hr, rfl⟩ := hr2
    have hrl : r.length = T.cols.length := hWF r hr
    simp only [List.length_cons]
    rw [List.length_eraseIdx_of_lt (by omega : i < r.length),
      List.length_erase_of_mem hn, hrl]
  · intro c
    simp only [List.mem_cons]
    constructor
    · intro h
      rcases h with h | h
      · exact h ▸ hn
      · exact List.mem_of_mem_erase h
    · intro h
      by_cases hcn : c = n
      · exact Or.inl hcn
      · exact Or.inr ((List.mem_erase_of_ne hcn).mpr h)
  · intro hnd
    simp only [List.nodup_cons]
    exact ⟨fun h => ((List.Nodup.mem_erase_iff hnd).mp h).1 rfl, hnd.erase n⟩
  · intro r2 hr2
    simp only [List.mem_map] at hr2
    obtain ⟨r, hr, rfl⟩ := hr2
    refine ⟨r, hr, fun c => ?_⟩
    have hmove := rowCell_move T.cols hi (hWF r hr) c
    rw [eraseIdx_colIdx? hi] at hmove
    exact hmove

theorem reorderFront_cons (T : Table) (n : String) (ns : List String) :
    reorderFront T (n :: ns) = moveToFront (reorderFront T ns) n := by
  unfold reorderFront
  rw [List.reverse_cons, List.foldl_append]
  rfl

theorem reorderFront_trace (ns : List String) : ∀ (T : Table), T.WF → T.cols.Nodup →
    (∀ n ∈ ns, n ∈ T.cols) →
    (reorderFront T ns).WF ∧
    (∀ c, c ∈ (reorderFront T ns).cols ↔ c ∈ T.cols) ∧
    (reorderFront T ns).cols.Nodup ∧
    (∀ r2 ∈ (reorderFront T ns).rows, ∃ r ∈ T.rows,
      ∀ c, rowCell (reorderFront T ns).cols r2 c = rowCell T.cols r c) := by
  induction ns with
  | nil =>
    intro T hWF hnd _
    exact ⟨hWF, fun c => Iff.rfl, hnd, fun r2 hr2 => ⟨r2, hr2, fun c => rfl⟩⟩
  | cons n ns ih =>
    intro T hWF hnd hmem
    rw [reorderFront_cons]
    obtain ⟨hWF1, hmem1, hnd1, htr1⟩ :=
      ih T hWF hnd (fun x hx => hmem x (List.mem_cons_of_mem _ hx))
    have hn1 : n ∈ (reorderFront T ns).cols :=
      (hmem1 n).mpr (hmem n (List.mem_cons_self _ _))
    obtain ⟨hWF2, hmem2, hnd2, htr2⟩ := moveToFront_trace _ n hWF1 hn1
    refine ⟨hWF2, fun c => (hmem2 c).trans (hmem1 c), hnd2 hnd1, ?_⟩
    intro r2 hr2
    obtain ⟨r1, hr1, hcell2⟩ := htr2 r2 hr2
    obtain ⟨r, hr, hcell1⟩ := htr1 r1 hr1
    exact ⟨r, hr, fun c => (hcell2 c).trans (hcell1 c)⟩

theorem setCol_cols_fresh (t : Table) (n : String) (vals : List Cell)
    (hn : n ∉ t.cols) : (setCol t n vals).cols = t.cols ++ [n] := by
  unfold setCol
  rw [(colIdx?_eq_none_iff t.cols n).mpr hn]

theorem leftJoin_cols_same_key (t : Table) (kT newName : String)
    (pairs : List (Cell × Cell)) :
    (leftJoin t kT pairs kT newName).cols = t.cols ++ [newName] := by
  unfold leftJoin
  rw [if_pos rfl]

theorem fillnaCol_cols (t : Table) (n : String) : (fillnaCol t n).cols = t.cols := by
  unfold fillnaCol
  cases colIdx? t.cols n <;> rfl

theorem lookupColStep_isSome (m : Table) (kT kM method : String) (t : Table)
    (v : String) (hv : v ∈ m.cols) :
    ∃ t2, lookupColStep m kT kM method t v = some t2 := by
  unfold lookupColStep
  rw [if_pos hv]
  by_cases hme : method = "merge"
  · rw [if_pos hme]
    exact ⟨_, rfl⟩
  · rw [if_neg hme]
    exact ⟨_, rfl⟩

theorem lookupColStep_cols (m : Table) (kT kM method : String) (t t2 : Table)
    (v : String) (hv : v ∈ m.cols) (hfresh : (v ++ "_mapped") ∉ t.cols)
    (hmm : method = "merge" → kM = kT)
    (h : lookupColStep m kT kM method t v = some t2) :
    t2.cols = t.cols ++ [v ++ "_mapped"] := by
  unfold lookupColStep at h
  rw [if_pos hv] at h
  by_cases hme : method = "merge"
  · rw [if_pos hme] at h
    injection h with h2
    rw [← h2, fillnaCol_cols]
    rw [hmm hme]
    exact leftJoin_cols_same_key t kT _ _
  · rw [if_neg hme] at h
    injection h with h2
    rw [← h2]
    exact setCol_cols_fresh t _ _ hfresh

theorem lookupFold_cols (m1 : Table) (kT kM method : String)
    (hmm : method = "merge" → kM = kT) :
    ∀ (vcs : List String) (T : Table) (ms : List String),
    (∀ v ∈ vcs, v ∈ m1.cols) →
    (∀ v ∈ vcs, (v ++ "_mapped") ∉ T.cols) →
    (vcs.map (fun v => v ++ "_mapped")).Nodup →
    ((vcs.foldl (lookupFoldStep m1 kT kM method) (T, ms)).1).cols
        = T.cols ++ vcs.map (fun v => v ++ "_mapped") ∧
    (vcs.foldl (lookupFoldStep m1 kT kM method) (T, ms)).2
        = ms ++ vcs.map (fun v => v ++ "_mapped") := by
  intro vcs
  induction vcs with
  | nil => intro T ms _ _ _; simp
  | cons v vs ih =>
    intro T ms hv hfresh hnd
    obtain ⟨t2, ht2⟩ := lookupColStep_isSome m1 kT kM method T v
      (hv v (List.mem_cons_self _ _))
    have hcols2 : t2.cols = T.cols ++ [v ++ "_mapped"] :=
      lookupColStep_cols m1 kT kM method T t2 v (hv v (List.mem_cons_self _ _))
        (hfresh v (List.mem_cons_self _ _)) hmm ht2
    rw [List.foldl_cons]
    have hstep : lookupFoldStep m1 kT kM method (T, ms) v
        = (t2, ms ++ [v ++ "_mapped"]) := by
      unfold lookupFoldStep
      rw [ht2]
    rw [hstep]
    simp only [List.map_cons, List.nodup_cons] at hnd
    obtain ⟨hv1, hnd1⟩ := hnd
    obtain ⟨hc, hs⟩ := ih t2 (ms ++ [v ++ "_mapped"])
      (fun x hx => hv x (List.mem_cons_of_mem _ hx))
      (fun x hx => by
        rw [hcols2]
        simp only [List.mem_append, List.mem_singleton]
        rintro (h1 | h1)
        · exact hfresh x (List.mem_cons_of_mem _ hx) h1
        · exact hv1 (h1 ▸ List.mem_map_of_mem _ hx))
      hnd1
    rw [hc, hs, hcols2]
    simp

theorem erase_filter_out (ns : List String) (n : String) :
    ∀ (l : List String), l.Nodup →
    (l.filter (fun c => c ∉ ns)).erase n = l.filter (fun c => c ∉ (n :: ns)) := by
  intro l
  induction l with
  | nil => intro _; simp
  | cons a as ih =>
    intro hnd
    obtain ⟨ha, hnd2⟩ := List.nodup_cons.mp hnd
    by_cases h1 : a ∈ ns
    · rw [List.filter_cons_of_neg (by simp [h1]),
        List.filter_cons_of_neg (by simp [h1]), ih hnd2]
    · by_cases h2 : a = n
      · subst h2
        rw [List.filter_cons_of_pos (by simp [h1]), List.erase_cons_head,
          List.filter_cons_of_neg (by simp)]
        apply List.filter_congr
        intro c hc
        have hca : c ≠ a := fun hh => ha (hh ▸ hc)
        simp [h1, hca]
      · rw [List.filter_cons_of_pos (by simp [h1]),
          List.erase_cons_tail (by simp [h2]),
          List.filter_cons_of_pos (by simp [h1, h2]), ih hnd2]

theorem reorderFront_cols (ns : List String) : ∀ (T : Table), T.cols.Nodup → ns.Nodup →
    (∀ n ∈ ns, n ∈ T.cols) →
    (reorderFront T ns).cols = ns ++ T.cols.filter (fun c => c ∉ ns) := by
  induction ns with
  | nil =>
    intro T _ _ _
    simp [reorderFront]
  | cons n ns ih =>
    intro T hnd hnnd hmem
    obtain ⟨hn1, hnnd2⟩ := List.nodup_cons.mp hnnd
    rw [reorderFront_cons]
    have h1 := ih T hnd hnnd2 (fun x hx => hmem x (List.mem_cons_of_mem _ hx))
    have hnmem : n ∈ (reorderFront T ns).cols := by
      rw [h1]
      simp only [List.mem_append, List.mem_filter]
      exact Or.inr ⟨hmem n (List.mem_cons_self _ _), by simpa using hn1⟩
    obtain ⟨i, hi⟩ := colIdx?_isSome_of_mem hnmem
    have hmv := moveToFront_spec (reorderFront T ns) n hi
    have hcols := congrArg Table.cols hmv
    simp only at hcols
    rw [hcols, h1, List.erase_append_right _ (by simpa using hn1),
      erase_filter_out ns n T.cols hnd]
    rfl

theorem mapped_name_injective : Function.Injective (fun v : String => v ++ "_mapped") := by
  intro a b h
  have hd := congrArg String.data h
  simp only [String.data_append] at hd
  exact String.ext (List.append_cancel_right hd)

/-- C6: after a successful lookup (with value columns present in the mapping
table, fresh `_mapped` names, and — for the `merge` strategy — a shared key
name), the result's columns are exactly the `_mapped` columns in the order
of `value_cols`, followed by all pre-existing columns in their original
order. -/
theorem mapped_columns_front (t m : Table) (kT kM method : String)
    (vcols : List String) (res : Table × List String)
    (hnd : t.cols.Nodup) (hvnd : vcols.Nodup)
    (hv : ∀ v ∈ vcols, v ∈ m.cols)
    (hfresh : ∀ v ∈ vcols, (v ++ "_mapped") ∉ t.cols)
    (hmm : method = "merge" → kM = kT)
    (h : performLookup t m kT kM vcols method = some res) :
    res.1.cols = vcols.map (fun v => v ++ "_mapped") ++ t.cols := by
  unfold performLookup at h
  split at h
  case isFalse => exact absurd h (by simp)
  case isTrue hg =>
    injection h with h2
    subst h2
    have ht1c : (normalizeKeyCol t kT).cols = t.cols := normalizeKeyCol_cols t kT
    have hm1c : (normalizeKeyCol m kM).cols = m.cols := normalizeKeyCol_cols m kM
    have hmapnd : (vcols.map (fun v => v ++ "_mapped")).Nodup :=
      hvnd.map mapped_name_injective
    obtain ⟨hc, hs⟩ := lookupFold_cols (normalizeKeyCol m kM) kT kM method hmm vcols
      (normalizeKeyCol t kT) []
      (fun v hv2 => hm1c ▸ hv v hv2)
      (fun v hv2 => ht1c ▸ hfresh v hv2)
      hmapnd
    rw [ht1c] at hc
    have hdisj : t.cols.Disjoint (vcols.map (fun v => v ++ "_mapped")) := by
      intro a ha hb
      obtain ⟨v, hv2, rfl⟩ := List.mem_map.mp hb
      exact hfresh v hv2 ha
    have hnd2 : ((vcols.foldl (lookupFoldStep (normalizeKeyCol m kM) kT kM method)
        (normalizeKeyCol t kT, [])).1).cols.Nodup := by
      rw [hc]
      exact hnd.append hmapnd hdisj
    have hsub : ∀ n ∈ (vcols.foldl (lookupFoldStep (normalizeKeyCol m kM) kT kM method)
        (normalizeKeyCol t kT, [])).2,
        n ∈ ((vcols.foldl (lookupFoldStep (normalizeKeyCol m kM) kT kM method)
        (normalizeKeyCol t kT, [])).1).cols := by
      rw [hs, hc]
      intro n hn
      simp only [List.nil_append] at hn
      exact List.mem_append_right _ hn
    rw [reorderFront_cols _ _ hnd2 (by rw [hs]; simpa using hmapnd) hsub, hs, hc]
    simp only [List.nil_append, List.filter_append]
    have h1 : t.cols.filter
        (fun c => c ∉ vcols.map (fun v => v ++ "_mapped")) = t.cols := by
      rw [List.filter_eq_self]
      intro a ha
      simpa using fun hb => hdisj ha hb
    have h2 : (vcols.map (fun v => v ++ "_mapped")).filter
        (fun c => c ∉ vcols.map (fun v => v ++ "_mapped")) = [] := by
      rw [List.filter_eq_nil_iff]
      intro a ha
      simpa using ha
    rw [h1, h2]
    simp

/-- Witness for C6 on the claim's own example: with
`value_cols = ["Region", "Manager"]` the result's columns start exactly
`["Region_mapped", "Manager_mapped"]` followed by the original columns. -/
theorem mapped_columns_front_witness :
    ((⟨["Region_mapped", "Manager_mapped", "ID", "X"],
       [[some "R", some "Mg", some "A1", some "u"]]⟩ : Table),
      ["Region_mapped", "Manager_mapped"]).1.cols
      = ["Region", "Manager"].map (fun v => v ++ "_mapped") ++ ["ID", "X"] := by
  exact mapped_columns_front ⟨["ID", "X"], [[some "a1", some "u"]]⟩
    ⟨["ID", "Region", "Manager"], [[some "A1", some "R", some "Mg"]]⟩ "ID" "ID" "map"
    ["Region", "Manager"]
    (⟨["Region_mapped", "Manager_mapped", "ID", "X"],
      [[some "R", some "Mg", some "A1", some "u"]]⟩, ["Region_mapped", "Manager_mapped"])
    (by decide) (by decide) (by decide) (by decide)
    (fun hh => absurd hh (by decide)) (by decide)

theorem normalizeKeyCol_WF (t : Table) (k : String) (h : t.WF) :
    (normalizeKeyCol t k).WF := by
  unfold normalizeKeyCol
  cases hc : colIdx? t.cols k with
  | none => exact h
  | some i =>
    intro r hr
    simp only [List.mem_map] at hr
    obtain ⟨r0, hr0, rfl⟩ := hr
    simpa using h r0 hr0

theorem zip_self_map {α β : Type} (l : List α) (f : α → β) :
    l.zip (l.map f) = l.map (fun a => (a, f a)) := by
  induction l with
  | nil => rfl
  | cons a as ih => simp [ih]

theorem noKeyMatch_spec {m : Table} {kM : String} {key : Cell}
    (h : noKeyMatch m kM key = true) :
    ∀ r ∈ m.rows, cellMatch key (rowCell m.cols r kM) = false := by
  unfold noKeyMatch at h
  intro r hr
  have := List.all_eq_true.mp h r hr
  simpa using this

theorem dictLookup_none_of_noKeyMatch (m1 : Table) (kM v s : String)
    (h : noKeyMatch m1 kM (some s) = true) :
    dictLookup (projectPairs m1 kM v) s = none := by
  unfold dictLookup
  rw [Option.map_eq_none', List.find?_eq_none]
  intro p hp
  rw [List.mem_reverse] at hp
  obtain ⟨r, hr, rfl⟩ := List.mem_map.mp hp
  have := noKeyMatch_spec h r hr
  simp [this]

theorem filter_nil_of_noKeyMatch (m1 : Table) (kM v : String) (key : Cell)
    (h : noKeyMatch m1 kM key = true) :
    (projectPairs m1 kM v).filter (fun p => cellMatch key p.1) = [] := by
  rw [List.filter_eq_nil_iff]
  intro p hp
  obtain ⟨r, hr, rfl⟩ := List.mem_map.mp hp
  have := noKeyMatch_spec h r hr
  simp [this]

theorem setCol_rows_fresh (t : Table) (n : String) (vals : List Cell)
    (hn : n ∉ t.cols) :
    (setCol t n vals).rows = (t.rows.zip vals).map (fun p => p.1 ++ [p.2]) := by
  unfold setCol
  rw [(colIdx?_eq_none_iff t.cols n).mpr hn]

/-- One value-column step sends every accumulator row `r` to `r ++ [cell]`
for a single new cell, and a row whose key has no match in the mapping table
receives exactly the sentinel cell. -/
theorem lookupColStep_trace (m1 : Table) (kT kM method v : String) (T t2 : Table)
    (hWF : T.WF) (hfresh : (v ++ "_mapped") ∉ T.cols)
    (hmm : method = "merge" → kM = kT)
    (h : lookupColStep m1 kT kM method T v = some t2) :
    t2.WF ∧ t2.cols = T.cols ++ [v ++ "_mapped"] ∧
    (∀ r2 ∈ t2.rows, ∃ r ∈ T.rows, (∃ cell, r2 = r ++ [cell]) ∧
      (noKeyMatch m1 kM (rowCell T.cols r kT) = true →
        r2 = r ++ [some "Not Matched"])) := by
  have hv : v ∈ m1.cols := by
    by_contra hv
    unfold lookupColStep at h
    rw [if_neg hv] at h
    exact absurd h (by simp)
  have hcols : t2.cols = T.cols ++ [v ++ "_mapped"] :=
    lookupColStep_cols m1 kT kM method T t2 v hv hfresh hmm h
  unfold lookupColStep at h
  rw [if_pos hv] at h
  have htrace : ∀ r2 ∈ t2.rows, ∃ r ∈ T.rows, (∃ cell, r2 = r ++ [cell]) ∧
      (noKeyMatch m1 kM (rowCell T.cols r kT) = true →
        r2 = r ++ [some "Not Matched"]) := by
    by_cases hme : method = "merge"
    · obtain rfl := (hmm hme).symm
      rw [if_pos hme] at h
      injection h with h2
      subst h2
      intro r2 hr2
      have hjrows : (leftJoin T kT (projectPairs m1 kT v) kT (v ++ "_mapped")).rows
          = T.rows.flatMap (fun r =>
            if ((projectPairs m1 kT v).filter
                (fun p => cellMatch (rowCell T.cols r kT) p.1)).isEmpty then
              [r ++ [(none : Cell)]]
            else ((projectPairs m1 kT v).filter
                (fun p => cellMatch (rowCell T.cols r kT) p.1)).map
              (fun p => r ++ [p.2])) := by
        unfold leftJoin
        simp
      have hidx : colIdx? (T.cols ++ [v ++ "_mapped"]) (v ++ "_mapped")
          = some T.cols.length := by
        rw [colIdx?_append_right hfresh]
        simp [colIdx?]
      have hfrows : (fillnaCol (leftJoin T kT (projectPairs m1 kT v) kT (v ++ "_mapped"))
          (v ++ "_mapped")).rows
          = (leftJoin T kT (projectPairs m1 kT v) kT (v ++ "_mapped")).rows.map
            (fun rr => rr.set T.cols.length
              (some ((rr.getD T.cols.length none).getD "Not Matched"))) := by
        unfold fillnaCol
        rw [leftJoin_cols_same_key, hidx]
      rw [hfrows, hjrows, List.map_flatMap] at hr2
      obtain ⟨r, hr, hmem⟩ := List.exists_of_mem_flatMap hr2
      have hrl : r.length = T.cols.length := hWF r hr
      by_cases hemp : ((projectPairs m1 kT v).filter
          (fun p => cellMatch (rowCell T.cols r kT) p.1)).isEmpty
      · rw [if_pos hemp] at hmem
        simp only [List.map_cons, List.map_nil, List.mem_singleton] at hmem
        subst hmem
        rw [← hrl, getD_append_length, set_append_length]
        refine ⟨r, hr, ⟨some "Not Matched", rfl⟩, fun _ => rfl⟩
      · rw [if_neg hemp] at hmem
        simp only [List.mem_map] at hmem
        obtain ⟨p, hp, rfl⟩ := hmem
        obtain ⟨q, hq, rfl⟩ := hp
        rw [← hrl, getD_append_length, set_append_length]
        refine ⟨r, hr, ⟨_, rfl⟩, fun hkm => ?_⟩
        exfalso
        rw [filter_nil_of_noKeyMatch m1 kT v _ hkm] at hemp
        simp at hemp
    · rw [if_neg hme] at h
      injection h with h2
      subst h2
      intro r2 hr2
      rw [setCol_rows_fresh T _ _ hfresh] at hr2
      have hvals : mapColVals T kT (projectPairs m1 kM v)
          = T.rows.map (fun r =>
              match rowCell T.cols r kT with
              | some s =>
                match dictLookup (projectPairs m1 kM v) s with
                | some (some w) => some w
                | some none => some "Not Matched"
                | none => some "Not Matched"
              | none => some "Not Matched") := by
        unfold mapColVals colVals
        rw [List.map_map]
        rfl
      rw [hvals, zip_self_map, List.map_map] at hr2
      simp only [List.mem_map, Function.comp] at hr2
      obtain ⟨r, hr, rfl⟩ := hr2
      refine ⟨r, hr, ⟨_, rfl⟩, fun hkm => ?_⟩
      cases hrc : rowCell T.cols r kT with
      | none => simp [hrc]
      | some s =>
        rw [hrc] at hkm
        simp only [hrc, dictLookup_none_of_noKeyMatch m1 kM v s hkm]
  refine ⟨?_, hcols, htrace⟩
  intro r2 hr2
  obtain ⟨r, hr, ⟨cell, rfl⟩, _⟩ := htrace r2 hr2
  rw [hcols]
  simp [hWF r hr]

/-- The value-column fold preserves well-formedness and every original cell,
and gives every row whose key has no match the sentinel in every `_mapped`
column it creates. -/
theorem lookupFold_trace (m1 : Table) (kT kM method : String)
    (hmm : method = "merge" → kM = kT) :
    ∀ (vcs : List String) (T : Table) (ms : List String),
    T.WF → kT ∈ T.cols →
    (∀ v ∈ vcs, v ∈ m1.cols) →
    (∀ v ∈ vcs, (v ++ "_mapped") ∉ T.cols) →
    (vcs.map (fun v => v ++ "_mapped")).Nodup →
    ((vcs.foldl (lookupFoldStep m1 kT kM method) (T, ms)).1).WF ∧
    ∀ r2 ∈ ((vcs.foldl (lookupFoldStep m1 kT kM method) (T, ms)).1).rows,
      ∃ r ∈ T.rows,
        (∀ c ∈ T.cols,
          rowCell ((vcs.foldl (lookupFoldStep m1 kT kM method) (T, ms)).1).cols r2 c
            = rowCell T.cols r c) ∧
        (noKeyMatch m1 kM (rowCell T.cols r kT) = true →
          ∀ v ∈ vcs,
            rowCell ((vcs.foldl (lookupFoldStep m1 kT kM method) (T, ms)).1).cols r2
                (v ++ "_mapped")
              = some "Not Matched") := by
  intro vcs
  induction vcs with
  | nil =>
    intro T ms hWF _ _ _ _
    refine ⟨hWF, fun r2 hr2 => ⟨r2, hr2, fun c _ => rfl, fun _ v hv => absurd hv ?_⟩⟩
    simp
  | cons v vs ih =>
    intro T ms hWF hkT hv hfresh hnd
    obtain ⟨t2, ht2⟩ := lookupColStep_isSome m1 kT kM method T v
      (hv v (List.mem_cons_self _ _))
    obtain ⟨hWF2, hcols2, htr2⟩ := lookupColStep_trace m1 kT kM method v T t2 hWF
      (hfresh v (List.mem_cons_self _ _)) hmm ht2
    have hstep : lookupFoldStep m1 kT kM method (T, ms) v
        = (t2, ms ++ [v ++ "_mapped"]) := by
      unfold lookupFoldStep
      rw [ht2]
    simp only [List.map_cons, List.nodup_cons] at hnd
    obtain ⟨hv1, hnd1⟩ := hnd
    have hkT2 : kT ∈ t2.cols := by
      rw [hcols2]
      exact List.mem_append_left _ hkT
    have hfresh2 : ∀ x ∈ vs, (x ++ "_mapped") ∉ t2.cols := by
      intro x hx
      rw [hcols2]
      simp only [List.mem_append, List.mem_singleton]
      rintro (h1 | h1)
      · exact hfresh x (List.mem_cons_of_mem _ hx) h1
      · exact hv1 (h1 ▸ List.mem_map_of_mem _ hx)
    obtain ⟨hWFf, htrf⟩ := ih t2 (ms ++ [v ++ "_mapped"]) hWF2 hkT2
      (fun x hx => hv x (List.mem_cons_of_mem _ hx)) hfresh2 hnd1
    rw [List.foldl_cons, hstep]
    refine ⟨hWFf, ?_⟩
    intro r2 hr2
    obtain ⟨r1, hr1, hpres1, hsent1⟩ := htrf r2 hr2
    obtain ⟨r, hr, ⟨cell, rfl⟩, hsent0⟩ := htr2 r1 hr1
    have hrl : r.length = T.cols.length := hWF r hr
    have hpres0 : ∀ c ∈ T.cols, rowCell t2.cols (r ++ [cell]) c = rowCell T.cols r c := by
      intro c hc
      rw [hcols2]
      exact rowCell_append_of_mem hc hrl _ _
    refine ⟨r, hr, ?_, ?_⟩
    · intro c hc
      rw [hpres1 c (by rw [hcols2]; exact List.mem_append_left _ hc)]
      exact hpres0 c hc
    · intro hkm v2 hv2
      rcases List.mem_cons.mp hv2 with h1 | h1
      · subst h1
        have hmv : (v2 ++ "_mapped") ∈ t2.cols := by
          rw [hcols2]
          exact List.mem_append_right _ (List.mem_singleton.mpr rfl)
        rw [hpres1 _ hmv]
        have := hsent0 hkm
        have hcell : cell = some "Not Matched" := by
          have := congrArg (fun l => l.getD r.length none) this
          simpa [getD_append_length] using this
        subst hcell
        rw [hcols2]
        exact rowCell_append_new (hfresh v2 (List.mem_cons_self _ _)) hrl [] []
      · have hkm2 : noKeyMatch m1 kM (rowCell t2.cols (r ++ [cell]) kT) = true := by
          rw [hpres0 kT hkT]
          exact hkm
        exact hsent1 hkm2 v2 h1

/-- C5: under either lookup strategy (with value columns present in the
mapping table, fresh `_mapped` names, and — for the `merge` strategy — a
shared key name), every result row whose normalized key has no corresponding
row in the (normalized) mapping table holds exactly the string
`"Not Matched"` in every `_mapped` column, never an empty or missing
value. -/
theorem unmatched_rows_sentinel (t m : Table) (kT kM method : String)
    (vcols : List String) (res : Table × List String)
    (hWF : t.WF) (hnd : t.cols.Nodup) (hvnd : vcols.Nodup)
    (hv : ∀ v ∈ vcols, v ∈ m.cols)
    (hfresh : ∀ v ∈ vcols, (v ++ "_mapped") ∉ t.cols)
    (hmm : method = "merge" → kM = kT)
    (h : performLookup t m kT kM vcols method = some res) :
    ∀ r2 ∈ res.1.rows,
      noKeyMatch (normalizeKeyCol m kM) kM (rowCell res.1.cols r2 kT) = true →
      ∀ v ∈ vcols, rowCell res.1.cols r2 (v ++ "_mapped") = some "Not Matched" := by
  unfold performLookup at h
  split at h
  case isFalse => exact absurd h (by simp)
  case isTrue hg =>
    injection h with h2
    subst h2
    have ht1c : (normalizeKeyCol t kT).cols = t.cols := normalizeKeyCol_cols t kT
    have hm1c : (normalizeKeyCol m kM).cols = m.cols := normalizeKeyCol_cols m kM
    have hmapnd : (vcols.map (fun v => v ++ "_mapped")).Nodup :=
      hvnd.map mapped_name_injective
    obtain ⟨hc, hs⟩ := lookupFold_cols (normalizeKeyCol m kM) kT kM method hmm vcols
      (normalizeKeyCol t kT) []
      (fun v hv2 => by rw [hm1c]; exact hv v hv2)
      (fun v hv2 => by rw [ht1c]; exact hfresh v hv2)
      hmapnd
    obtain ⟨hWFf, htrf⟩ := lookupFold_trace (normalizeKeyCol m kM) kT kM method hmm vcols
      (normalizeKeyCol t kT) []
      (normalizeKeyCol_WF t kT hWF)
      (by rw [ht1c]; exact hg.1)
      (fun v hv2 => by rw [hm1c]; exact hv v hv2)
      (fun v hv2 => by rw [ht1c]; exact hfresh v hv2)
      hmapnd
    have hdisj : t.cols.Disjoint (vcols.map (fun v => v ++ "_mapped")) := by
      intro a ha hb
      obtain ⟨v2, hv2, rfl⟩ := List.mem_map.mp hb
      exact hfresh v2 hv2 ha
    have hnd2 : ((vcols.foldl
        (lookupFoldStep (normalizeKeyCol m kM) kT kM method)
        (normalizeKeyCol t kT, [])).1).cols.Nodup := by
      rw [hc, ht1c]
      exact hnd.append hmapnd hdisj
    have hsub : ∀ n ∈ (vcols.foldl
        (lookupFoldStep (normalizeKeyCol m kM) kT kM method)
        (normalizeKeyCol t kT, [])).2,
        n ∈ ((vcols.foldl
          (lookupFoldStep (normalizeKeyCol m kM) kT kM method)
          (normalizeKeyCol t kT, [])).1).cols := by
      rw [hs, hc]
      intro n hn
      simp only [List.nil_append] at hn
      exact List.mem_append_right _ hn
    obtain ⟨hWFr, hmemr, hndr, htrr⟩ := reorderFront_trace _ _ hWFf hnd2 hsub
    intro r2 hr2 hkm v hv2
    obtain ⟨r1, hr1, hcell⟩ := htrr r2 hr2
    obtain ⟨r, hr, hpres, hsent⟩ := htrf r1 hr1
    have hkTmem : kT ∈ (normalizeKeyCol t kT).cols := by
      rw [ht1c]
      exact hg.1
    rw [hcell kT, hpres kT hkTmem] at hkm
    rw [hcell (v ++ "_mapped")]
    exact hsent hkm v hv2

/-- Witness for C5: a single-row table with key `"zz"` (normalized `"ZZ"`)
has no match in the mapping table and its `Name_mapped` cell is exactly the
sentinel. -/
theorem unmatched_rows_sentinel_witness :
    rowCell ((⟨["Name_mapped", "ID"],
        [[some "Not Matched", some "ZZ"]]⟩ : Table), ["Name_mapped"]).1.cols
      [some "Not Matched", some "ZZ"] ("Name" ++ "_mapped") = some "Not Matched" := by
  exact unmatched_rows_sentinel ⟨["ID"], [[some "zz"]]⟩
    ⟨["ID", "Name"], [[some "A1", some "Bob"]]⟩ "ID" "ID" "map" ["Name"]
    (⟨["Name_mapped", "ID"], [[some "Not Matched", some "ZZ"]]⟩, ["Name_mapped"])
    (by intro r hr; rw [List.mem_singleton] at hr; subst hr; rfl)
    (by decide) (by decide) (by decide) (by decide)
    (fun hh => absurd hh (by decide)) (by decide)
    [some "Not Matched", some "ZZ"] (by decide) (by decide) "Name" (by decide)
